import Mathlib

/-!
Verification development for the Chord-Generator repository.

The Python sources are embedded shallowly:

* machine reals that only ever hold exact decimal/ratio data are modelled
  by `ℚ` (the sums and comparisons the claims talk about are then exact);
* Python dicts (insertion ordered, keyed by structural equality) are
  modelled by association lists over types with `DecidableEq`;
* operations that can raise in Python return `Option`, with `none`
  standing for the raised exception;
* the two uses of `random` (`random.choice`, `random.choices`) are fed an
  explicit natural-number draw and pick an element by index, `none` when
  Python would raise on an empty population;
* `numpy.power`, the one genuinely real-valued operation, is passed in as
  an abstract function `pw : ℚ → ℚ → ℚ`; theorems that need it assume
  only what real exponentiation guarantees (positives map to positives).
-/

/-- Jazz chord value: root, quality and extension labels
(JazzChord.py, class JazzChord). -/
structure JazzChord where
  root : String
  quality : String
  extensions : List String
  deriving DecidableEq

/-- Python `JazzChord.__eq__` (JazzChord.py lines 37-42): structural equality
with the extension lists compared as ordered lists. -/
def JazzChord.pyEq (a b : JazzChord) : Bool :=
  a.root == b.root && a.quality == b.quality && a.extensions == b.extensions

/-- The tuple Python hashes in `JazzChord.__hash__` (JazzChord.py lines 44-45):
root, quality, and the extensions sorted; equal tuples are guaranteed equal
hashes, so hash agreement is modelled as equality of this key. -/
def JazzChord.hashKey (c : JazzChord) : String × String × List String :=
  (c.root, c.quality, List.insertionSort (fun a b : String => a ≤ b) c.extensions)

/-- Python `str(chord)` (JazzChord.py lines 30-32): root, quality and the
concatenated extensions. -/
def JazzChord.toString (c : JazzChord) : String :=
  c.root ++ c.quality ++ String.join c.extensions

/-- Helper for `str.replace(pat, "")`: structural recursion with fuel equal to
the length of the scanned list; each step consumes at least one character, so
the fuel never runs out on the initial call. -/
def removeSubAux (pat : List Char) : Nat → List Char → List Char
  | _, [] => []
  | 0, s => s
  | fuel + 1, c :: rest =>
    if pat ≠ [] ∧ pat.isPrefixOf (c :: rest) then
      removeSubAux pat fuel (List.drop pat.length (c :: rest))
    else
      c :: removeSubAux pat fuel rest

/-- Python `s.replace(pat, "")`: delete every occurrence of `pat`, scanning
left to right and continuing after each deleted occurrence. -/
def strRemove (s pat : String) : String :=
  String.mk (removeSubAux pat.toList s.toList.length s.toList)

/-- Python `pat in s` on strings: substring containment. -/
def strHas (s pat : String) : Bool :=
  decide (pat.toList <:+: s.toList)

/-- Python `MarkovChain._parse_chord_string` (Markov_Chain_For_Chords.py
lines 189-205): quality recognised by substring tests, root recovered by
deleting every occurrence of the quality spelling. -/
def parseChordString (s : String) : JazzChord :=
  if strHas s "m7b5" || strHas s "ø" then
    JazzChord.mk (strRemove (strRemove s "m7b5") "ø") "m7b5" []
  else if strHas s "m7" || strHas s "-7" then
    JazzChord.mk (strRemove (strRemove s "m7") "-7") "m7" []
  else if strHas s "maj7" || strHas s "Δ" then
    JazzChord.mk (strRemove (strRemove s "maj7") "Δ") "maj7" []
  else if strHas s "7" then
    JazzChord.mk (strRemove s "7") "7" []
  else
    JazzChord.mk s "maj7" []

/-- Lookup in an insertion-ordered association list (a Python dict). -/
def lookupA {κ ν : Type} [DecidableEq κ] (k : κ) : List (κ × ν) → Option ν
  | [] => none
  | (k2, v) :: rest => if k = k2 then some v else lookupA k rest

/-- Python `Counter[k] += 1`: increment in place, or append `(k, 1)` when the
key is new (insertion order preserved). -/
def bumpA {κ : Type} [DecidableEq κ] (k : κ) : List (κ × Nat) → List (κ × Nat)
  | [] => [(k, 1)]
  | (k2, n) :: rest => if k = k2 then (k2, n + 1) :: rest else (k2, n) :: bumpA k rest

/-- Python `defaultdict(Counter)[s][c] += 1`: bump the inner counter of key
`s`, creating a fresh one-entry counter when `s` is new. -/
def bump2 {σ χ : Type} [DecidableEq σ] [DecidableEq χ] (s : σ) (c : χ) :
    List (σ × List (χ × Nat)) → List (σ × List (χ × Nat))
  | [] => [(s, [(c, 1)])]
  | (s2, ctr) :: rest =>
    if s = s2 then (s2, bumpA c ctr) :: rest else (s2, ctr) :: bump2 s c rest

/-- Sum of the values of a rational-valued dict. -/
def sumValsQ {χ : Type} (d : List (χ × ℚ)) : ℚ :=
  (d.map Prod.snd).sum

/-- Sum of the values of a counter. -/
def sumValsN {χ : Type} (d : List (χ × Nat)) : Nat :=
  (d.map Prod.snd).sum

/-- A Markov state: the tuple of the most recent chords
(Markov_Chain_For_Chords.py, `tuple(...)` keys). -/
abbrev ChordState := List JazzChord

/-- The `MarkovChain` object state (Markov_Chain_For_Chords.py lines 14-19). -/
structure MarkovChain where
  order : Nat
  transitions : List (ChordState × List (JazzChord × Nat))
  chordVocab : List JazzChord
  startStates : List ChordState
  probabilities : List (ChordState × List (JazzChord × ℚ))
  deriving DecidableEq

/-- Python `MarkovChain.__init__`: empty tables. -/
def MarkovChain.init (order : Nat) : MarkovChain :=
  MarkovChain.mk order [] [] [] []

/-- Python `self.chord_vocab.update(progression)` modelled as a list with
first-seen ordering (the set membership semantics is what the claims use;
CPython set iteration order is not observable in the claims). -/
def vocabAdd (vocab : List JazzChord) (prog : List JazzChord) : List JazzChord :=
  prog.foldl (fun v c => if c ∈ v then v else v ++ [c]) vocab

/-- The transition-counting loop of `MarkovChain.train`
(Markov_Chain_For_Chords.py lines 31-37): for each `i` in
`range(len(progression) - order)` bump the counter of the window
`progression[i : i + order]` at the chord `progression[i + order]`.
The `none` branch of the head lookup is unreachable (the index is in range). -/
def trainProg (order : Nat) (tr : List (ChordState × List (JazzChord × Nat)))
    (prog : List JazzChord) : List (ChordState × List (JazzChord × Nat)) :=
  (List.range (prog.length - order)).foldl
    (fun tr i =>
      match (prog.drop (i + order)).head? with
      | some nxt => bump2 ((prog.drop i).take order) nxt tr
      | none => tr)
    tr

/-- Python `MarkovChain._compute_probabilities` (lines 48-57): rebuild the
probability dict from scratch, dividing each count by the state total. -/
def computeProbabilities (tr : List (ChordState × List (JazzChord × Nat))) :
    List (ChordState × List (JazzChord × ℚ)) :=
  tr.map (fun sc =>
    (sc.1, sc.2.map (fun cn => (cn.1, (cn.2 : ℚ) / (sumValsN sc.2 : ℚ)))))

/-- Python `MarkovChain._find_common_start_states` (lines 59-70): count the first
`order` chords of every long-enough progression, stable-sort by count
descending (Python `Counter.most_common`), keep the ten most common. -/
def findCommonStartStates (order : Nat) (progs : List (List JazzChord)) :
    List ChordState :=
  let startCounter := progs.foldl
    (fun ctr prog => if order ≤ prog.length then bumpA (prog.take order) ctr else ctr) []
  ((List.insertionSort (fun a b : ChordState × Nat => b.2 ≤ a.2) startCounter).take 10).map
    Prod.fst

/-- Python `MarkovChain.train` (lines 21-46): accumulate vocabulary and transition
counts progression by progression (into the existing tables - they are not
cleared), then recompute probabilities and recompute the start states from
the corpus just given. -/
def MarkovChain.train (m : MarkovChain) (progs : List (List JazzChord)) : MarkovChain :=
  let vt := progs.foldl
    (fun acc prog => (vocabAdd acc.1 prog, trainProg m.order acc.2 prog))
    (m.chordVocab, m.transitions)
  MarkovChain.mk m.order vt.2 vt.1 (findCommonStartStates m.order progs)
    (computeProbabilities vt.2)

/-- Index of the first maximal element, tracked as `numpy.argmax` does:
update only on a strict increase. -/
def argmaxGo (bi : Nat) (bv : ℚ) (i : Nat) : List ℚ → Nat
  | [] => bi
  | x :: xs => if bv < x then argmaxGo i x (i + 1) xs else argmaxGo bi bv (i + 1) xs

/-- Python `numpy.argmax`: first index of the maximum; raises on an empty array,
modelled as `none`. -/
def argmaxIdx : List ℚ → Option Nat
  | [] => none
  | x :: xs => some (argmaxGo 0 x 1 xs)

/-- Python `MarkovChain._apply_temperature` (lines 109-124). For `T > 0` every
probability is replaced by `pw p (1/T)` (the abstract `numpy.power`) and the
results renormalised; otherwise (`T ≤ 0`, the code comment only mentions 0)
the distribution collapses to a one-hot at the first argmax. The argmax of an
empty array raises, hence `Option`. -/
def applyTemperature (pw : ℚ → ℚ → ℚ) (probs : List (JazzChord × ℚ)) (T : ℚ) :
    Option (List (JazzChord × ℚ)) :=
  if 0 < T then
    let scaled := probs.map (fun cp => (cp.1, pw cp.2 (1 / T)))
    some (scaled.map (fun cp => (cp.1, cp.2 / sumValsQ scaled)))
  else
    match argmaxIdx (probs.map Prod.snd) with
    | none => none
    | some i => some (probs.enum.map (fun jcp => (jcp.2.1, if jcp.1 = i then (1 : ℚ) else 0)))

/-- Python `MarkovChain._get_global_frequencies` (lines 137-145): count every chord
appearing as a key of some state distribution, then normalise (an empty
probability table yields the empty dict - the comprehension never divides). -/
def getGlobalFrequencies (m : MarkovChain) : List (JazzChord × ℚ) :=
  let allChords := m.probabilities.foldl (fun acc sp => acc ++ sp.2.map Prod.fst) []
  let counts := allChords.foldl (fun ctr c => bumpA c ctr) []
  counts.map (fun cn => (cn.1, (cn.2 : ℚ) / (sumValsN counts : ℚ)))

/-- Python `MarkovChain._handle_unknown_state` (lines 126-135): drop the oldest chord
of the state when it has more than one chord and the reduced state is known,
else fall back to the global frequencies. -/
def handleUnknownState (m : MarkovChain) (st : ChordState) : List (JazzChord × ℚ) :=
  if 1 < st.length then
    match lookupA (st.drop 1) m.probabilities with
    | some d => d
    | none => getGlobalFrequencies m
  else getGlobalFrequencies m

/-- Python `MarkovChain.get_possible_next` (lines 95-107): exact hit uses the stored
distribution (temperature-scaled unless `T = 1`); a miss is delegated to
`_handle_unknown_state` with no temperature applied. -/
def getPossibleNext (pw : ℚ → ℚ → ℚ) (m : MarkovChain) (st : ChordState) (T : ℚ) :
    Option (List (JazzChord × ℚ)) :=
  match lookupA st m.probabilities with
  | none => some (handleUnknownState m st)
  | some probs => if T ≠ 1 then applyTemperature pw probs T else some probs

/-- Python `random.choice(l)` driven by an explicit draw: an element of `l` selected
by index, `none` on an empty population (Python raises IndexError). -/
def randomChoice {α : Type} (l : List α) (r : Nat) : Option α :=
  l.get? (r % l.length)

/-- Python `MarkovChain._weighted_choice` (lines 147-150): `zip(*d.items())` raises
on an empty dict and `random.choices` raises when the weights sum to a
non-positive value; otherwise some key of the dict is drawn. -/
def weightedChoice (d : List (JazzChord × ℚ)) (r : Nat) : Option JazzChord :=
  if d = [] ∨ sumValsQ d ≤ 0 then none
  else (d.get? (r % d.length)).map Prod.fst

/-- The `while` loop of `MarkovChain._pad_sequence` (lines 158-164), with fuel
`order - len(chords)`: each pass appends exactly one chord. The first branch
re-reads a random start state (dead code: when it is reachable the early
return of `_pad_sequence` has already fired); indexing `[0]` into an empty
start tuple would raise, hence the `Option`. -/
def padLoop (starts : List ChordState) (r : Nat) : Nat → List JazzChord → Option (List JazzChord)
  | 0, cs => some cs
  | fuel + 1, cs =>
    match
      (if starts ≠ [] ∧ cs.length = 0 then (randomChoice starts r).bind List.head?
       else some (cs.getLastD (JazzChord.mk "C" "maj7" []))) with
    | none => none
    | some c => padLoop starts r fuel (cs ++ [c])

/-- Python `MarkovChain._pad_sequence` (lines 152-166). Returns the padded sequence
together with the caller's list after the call: the early return hands back a
fresh copy of a random start state and leaves the caller's empty list intact,
while the loop appends to the caller's list in place, so there the two
components coincide. -/
def padSequence (m : MarkovChain) (r : Nat) (chords : List JazzChord) :
    Option (List JazzChord × List JazzChord) :=
  if chords = [] ∧ m.startStates ≠ [] then
    (randomChoice m.startStates r).map (fun st => (st, chords))
  else
    (padLoop m.startStates r (m.order - chords.length) chords).map (fun l => (l, l))

/-- The curated chord list of `MarkovChain._get_random_diatonic_fallback`
(lines 170-174). -/
def commonChords : List JazzChord :=
  [ JazzChord.mk "C" "maj7" [], JazzChord.mk "D" "m7" [], JazzChord.mk "G" "7" [],
    JazzChord.mk "A" "m7" [], JazzChord.mk "F" "maj7" [], JazzChord.mk "E" "m7" [],
    JazzChord.mk "A" "7" [], JazzChord.mk "B" "m7b5" [] ]

/-- The `common_progressions` table of `_get_random_diatonic_fallback`
(lines 178-181). -/
def commonProgressions : List (String × String) :=
  [ ("Dm7", "G7"), ("G7", "Cmaj7"), ("Am7", "Dm7"),
    ("Em7", "A7"), ("A7", "Dm7"), ("Bm7b5", "E7") ]

/-- Python `MarkovChain._get_random_diatonic_fallback` (lines 168-187): when the
previous chord is one of the curated chords and its rendering is a key of
`common_progressions`, return the parsed successor; otherwise draw from the
curated list. -/
def getRandomDiatonicFallback (prev : Option JazzChord) (r : Nat) : Option JazzChord :=
  match prev with
  | some p =>
    if p ∈ commonChords then
      match lookupA (JazzChord.toString p) commonProgressions with
      | some nextStr => some (parseChordString nextStr)
      | none => randomChoice commonChords r
    else randomChoice commonChords r
  | none => randomChoice commonChords r

/-- Every chord `_get_random_diatonic_fallback` can return: the curated list
plus the parsed successors of the `common_progressions` table. -/
def fallbackPool : List JazzChord :=
  commonChords ++ commonProgressions.map (fun p => parseChordString p.2)

/-- Python `MarkovChain.predict_next` (lines 72-93). First component: the predicted
chord (`none` only on the unreachable raising paths). Second component: the
caller's `previous_chords` list after the call - `_pad_sequence` appends to
it in place on the loop path, and the final fallback reads `[-1]` from that
same (possibly padded) list. -/
def predictNext (pw : ℚ → ℚ → ℚ) (m : MarkovChain) (hist : List JazzChord) (T : ℚ)
    (r1 r2 r3 : Nat) : Option JazzChord × List JazzChord :=
  match
    (if hist.length < m.order then padSequence m r1 hist
     else some (hist.drop (hist.length - m.order), hist)) with
  | none => (none, hist)
  | some pr =>
    (match getPossibleNext pw m pr.1 T with
     | none => none
     | some cands =>
       if cands = [] then getRandomDiatonicFallback pr.2.getLast? r3
       else weightedChoice cands r2,
     pr.2)

/-- Beat strength levels (Phrase_Analysis.py, enum BeatStrength). -/
inductive BeatStrength
  | STRONG
  | MEDIUM
  | WEAK
  | VERY_WEAK
  deriving DecidableEq

/-- The numeric value of each enum member. -/
def BeatStrength.value : BeatStrength → Nat
  | .STRONG => 3
  | .MEDIUM => 2
  | .WEAK => 1
  | .VERY_WEAK => 0

/-- A timestamped melody note (Phrase_Analysis.py, dataclass Note). -/
structure Note where
  pitch : String
  start_beat : ℚ
  duration : ℚ
  velocity : Nat
  deriving DecidableEq

/-- Derived `Note.end_beat`. -/
def Note.end_beat (n : Note) : ℚ :=
  n.start_beat + n.duration

/-- An analysed phrase (Phrase_Analysis.py, dataclass Phrase); the unset
dataclass defaults are `cadence_note = None` and `strong_beat_notes = []`. -/
structure Phrase where
  notes : List Note
  start_beat : ℚ
  end_beat : ℚ
  length_bars : ℚ
  cadence_note : Option Note
  strong_beat_notes : List Note
  deriving DecidableEq

/-- Python `a % b` on non-negative reals with positive modulus. -/
def qmod (a b : ℚ) : ℚ :=
  a - b * ⌊a / b⌋

/-- Python `PhraseAnalyzer._get_beat_strength` (Phrase_Analysis.py lines 200-211). -/
def getBeatStrength (beatsPerBar : ℚ) (pos : ℚ) : BeatStrength :=
  let b := qmod pos beatsPerBar
  if b = 0 then .STRONG
  else if b = beatsPerBar / 2 then .MEDIUM
  else if qmod b 1 = 0 then .WEAK
  else .VERY_WEAK

/-- The note-name table shared by `PhraseAnalyzer._pitch_to_midi` and
`ScaleDetector.note_indices` (identical contents in both files). -/
def noteIndexMap : List (String × Nat) :=
  [ ("C", 0), ("C#", 1), ("Db", 1), ("D", 2), ("D#", 3), ("Eb", 3),
    ("E", 4), ("F", 5), ("F#", 6), ("Gb", 6), ("G", 7), ("G#", 8),
    ("Ab", 8), ("A", 9), ("A#", 10), ("Bb", 10), ("B", 11) ]

/-- The non-digit characters of a pitch string (the note name). -/
def pitchNoteName (p : String) : String :=
  String.mk (p.toList.filter (fun c => !c.isDigit))

/-- Python octave parsing: the digits of the pitch string fed to `int`;
`none` models the ValueError raised when the pitch carries no octave
digits (an empty digit string). -/
def pitchOctave (p : String) : Option Nat :=
  (String.mk (p.toList.filter Char.isDigit)).toNat?

/-- Python `_pitch_to_midi` as written identically in Phrase_Analysis.py
(lines 258-271) and key_detector.py (lines 114-120): `(octave + 1) * 12`
plus the note value, unknown note names defaulting to 0. -/
def pitchToMidi (p : String) : Option Nat :=
  (pitchOctave p).map (fun o => (o + 1) * 12 + (lookupA (pitchNoteName p) noteIndexMap).getD 0)

/-- The scanning loop of `PhraseAnalyzer._detect_phrases_by_rests`
(Phrase_Analysis.py lines 103-118): flush the current group whenever the gap
to the next note is at least 1.5 beats; the trailing group is flushed at the
end when non-empty. -/
def splitByRests (current : List Note) : List Note → List (List Note)
  | [] => if current ≠ [] then [current] else []
  | [n] => [current ++ [n]]
  | n1 :: n2 :: rest =>
    if (3 / 2 : ℚ) ≤ n2.start_beat - n1.end_beat then
      (current ++ [n1]) :: splitByRests [] (n2 :: rest)
    else
      splitByRests (current ++ [n1]) (n2 :: rest)

/-- Python `PhraseAnalyzer._detect_phrases_by_rests` (lines 92-120); the
`total_bars` argument is accepted and unused, as in the source. -/
def detectPhrasesByRests (notes : List Note) (totalBars : ℚ) : List (List Note) :=
  splitByRests [] notes

/-- Python `PhraseAnalyzer._divide_into_equal_phrases` (lines 122-153): window
length 4 bars when `total_bars ≥ 8` else 2; `ceil(total_bars / length)`
windows; notes assigned by start-beat membership; empty windows dropped. -/
def divideIntoEqualPhrases (beatsPerBar : ℚ) (notes : List Note) (totalBars : ℚ) :
    List (List Note) :=
  let phraseLengthBars : ℚ := if 8 ≤ totalBars then 4 else if 4 ≤ totalBars then 2 else 2
  let phraseLengthBeats := phraseLengthBars * beatsPerBar
  let numPhrases := Int.toNat ⌈totalBars / phraseLengthBars⌉
  (List.range numPhrases).foldl
    (fun phrases (i : Nat) =>
      let startB := (i : ℚ) * phraseLengthBeats
      let endB := ((i : ℚ) + 1) * phraseLengthBeats
      let phraseNotes := notes.filter
        (fun n => decide (startB ≤ n.start_beat) && decide (n.start_beat < endB))
      if phraseNotes ≠ [] then phrases ++ [phraseNotes] else phrases)
    []

/-- Python `PhraseAnalyzer._identify_important_notes` (lines 213-256): score each
note by duration, beat strength and melodic extremes (weights 0.4/0.3/0.3),
stable-sort descending and keep `max 2 (len notes / 3)` notes; pitch parsing
can raise, hence `Option`. -/
def identifyImportantNotes (beatsPerBar : ℚ) (notes : List Note) : Option (List Note) :=
  if notes = [] then some []
  else
    match notes.mapM (fun n => pitchToMidi n.pitch) with
    | none => none
    | some pitches =>
      let maxP := pitches.foldl Nat.max 0
      let minP :=
        match pitches with
        | [] => 0
        | p :: ps => ps.foldl Nat.min p
      let scored := (notes.zip pitches).map (fun np =>
        let durationScore := min (np.1.duration / 2) 1
        let strengthScore := ((getBeatStrength beatsPerBar np.1.start_beat).value : ℚ) / 3
        let base := durationScore * (4 / 10) + strengthScore * (3 / 10)
        (np.1, if maxP = np.2 ∨ minP = np.2 then base + 3 / 10 else base))
      let sorted := List.insertionSort (fun a b : Note × ℚ => b.2 ≤ a.2) scored
      some ((sorted.take (max 2 (notes.length / 3))).map Prod.fst)

/-- Python `PhraseAnalyzer._analyze_single_phrase` (lines 155-185): extrema over the
group, derived bar length, last note as cadence, strong-beat filter; the
important-note analysis is computed and discarded exactly as in the source
(its only observable effect is the exception it may raise); an empty group
raises ValueError, modelled as `none`. -/
def analyzeSinglePhrase (beatsPerBar : ℚ) (phraseNotes : List Note) (totalBars : ℚ) :
    Option Phrase :=
  match phraseNotes with
  | [] => none
  | n0 :: rest =>
    let startBeat := rest.foldl (fun acc n => min acc n.start_beat) n0.start_beat
    let endBeat := rest.foldl (fun acc n => max acc n.end_beat) n0.end_beat
    let strongBeatNotes := (n0 :: rest).filter (fun n =>
      decide (getBeatStrength beatsPerBar n.start_beat = .STRONG ∨
        getBeatStrength beatsPerBar n.start_beat = .MEDIUM))
    match identifyImportantNotes beatsPerBar (n0 :: rest) with
    | none => none
    | some _ =>
      some (Phrase.mk (n0 :: rest) startBeat endBeat ((endBeat - startBeat) / beatsPerBar)
        (n0 :: rest).getLast? strongBeatNotes)

/-- Python `sorted(notes, key=start_beat)`: a stable sort. -/
def sortNotes (notes : List Note) : List Note :=
  List.insertionSort (fun a b : Note => a.start_beat ≤ b.start_beat) notes

/-- Python `PhraseAnalyzer.analyze_phrases` (lines 67-90): sort, split at rests,
fall back to equal division when at most one group results, then analyse
every group. -/
def analyzePhrases (beatsPerBar : ℚ) (notes : List Note) (totalBars : ℚ) :
    Option (List Phrase) :=
  if notes = [] then some []
  else
    let sorted := sortNotes notes
    let byRests := detectPhrasesByRests sorted totalBars
    let groups :=
      if byRests.length ≤ 1 then divideIntoEqualPhrases beatsPerBar sorted totalBars
      else byRests
    groups.mapM (fun g => analyzeSinglePhrase beatsPerBar g totalBars)

/-- The phrase-augmented state shape (phrase_aware_markov_chain.py, class
PhraseAwareState): exactly the fields the class declares, `melody_note`
defaulting to none. The class body holds only these annotations and a
`__hash__` - it has no `@dataclass` decorator, no `__init__`, and no
`__eq__` - so every attempt to construct an instance raises TypeError
(modelled by `mkPhraseAwareState` below) and no value of this type ever
reaches a table; the derived structural equality merely types the dead
recording line and is never exercised (nor, therefore, is the class's
identity-based default `__eq__`). -/
structure PhraseAwareState where
  previousChords : ChordState
  phrasePosition : String
  currentBeatStrength : BeatStrength
  isCadence : Bool
  melodyNote : Option String
  deriving DecidableEq

/-- The per-position context dict built by `_create_phrase_context_map`
(phrase position, beat strength, cadence flag). -/
structure PhraseContext where
  phrasePosition : String
  beatStrength : BeatStrength
  isCadence : Bool
  deriving DecidableEq

/-- Python `d[k] = v` on a dict: replace in place or append. -/
def setA {κ ν : Type} [DecidableEq κ] (k : κ) (v : ν) : List (κ × ν) → List (κ × ν)
  | [] => [(k, v)]
  | (k2, v2) :: rest => if k = k2 then (k2, v) :: rest else (k2, v2) :: setA k v rest

/-- Modelled from the spec: `PhraseAwareMarkovChain._create_phrase_context_map`
(phrase_aware_markov_chain.py lines 64-95) reads
`phrase.analyzer._get_beat_strength(...)` through an analyzer back-reference
on the phrase object that no code under src/ ever attaches; the spec (design
notes) records that this back-reference exists only to recover beat strength
from the analyzer's time signature, so the analyzer's beats-per-bar is taken
here as an explicit argument. Everything else follows the source: positions
are `current_beat + note_idx` with `current_beat` advanced by the note count
of each phrase; the first note of a phrase is `start`, the last `end`,
others `middle`; `is_cadence` only at the last note of the last phrase. -/
def createPhraseContextMap (beatsPerBar : ℚ) (phrases : List Phrase) :
    List (Nat × PhraseContext) :=
  (phrases.enum.foldl
    (fun acc pip =>
      let m := pip.2.notes.enum.foldl
        (fun mp nin =>
          let phrasePos :=
            if nin.1 = 0 then "start"
            else if nin.1 = pip.2.notes.length - 1 then "end"
            else "middle"
          let isCad := nin.1 = pip.2.notes.length - 1 ∧ pip.1 = phrases.length - 1
          setA (acc.2 + nin.1)
            (PhraseContext.mk phrasePos (getBeatStrength beatsPerBar nin.2.start_beat)
              (decide isCad)) mp)
        acc.1
      (m, acc.2 + pip.2.notes.length))
    (([] : List (Nat × PhraseContext)), 0)).1

/-- Python `PhraseAwareState(previous_chords=..., phrase_position=...,
current_beat_strength=..., is_cadence=...)` (phrase_aware_markov_chain.py
lines 47-52, likewise lines 111-117): the class body defines neither an
`__init__` nor a `@dataclass` decorator, so the call raises TypeError
before any field is set; modelled as `none`. -/
def mkPhraseAwareState (previousChords : ChordState) (phrasePosition : String)
    (currentBeatStrength : BeatStrength) (isCadence : Bool)
    (melodyNote : Option String) : Option PhraseAwareState :=
  none

/-- One progression of the recording loop of
`PhraseAwareMarkovChain.train_with_phrases` (phrase_aware_markov_chain.py
lines 31-60), with the exception state threaded explicitly: the first
component is the pair (phrase_transitions, cadence_progressions), the
second is true once an exception is propagating, after which nothing
further executes and the tables keep the state they had. Each iteration
reads `progression[i + 1]` (an IndexError, hence a raise, when out of
range), looks up the phrase context with the middle/WEAK/non-cadence
default, and then constructs the enhanced state - a call that always
raises (`mkPhraseAwareState`), so the two table updates that follow in
the source text are dead code, kept here exactly as the source reads.
(For phrase lists that carry notes the source would raise even earlier,
inside `_create_phrase_context_map` at the unattached `phrase.analyzer`
back-reference; the spec-modelled map lets that step succeed, which only
moves the inevitable raise to the state construction and leaves the
empty-table outcome unchanged.) -/
def trainWithPhrasesProg (order : Nat) (beatsPerBar : ℚ)
    (tbls : List (PhraseAwareState × List (JazzChord × Nat)) ×
      List (ChordState × List (JazzChord × Nat)))
    (prog : List JazzChord) (phrases : List Phrase) :
    (List (PhraseAwareState × List (JazzChord × Nat)) ×
      List (ChordState × List (JazzChord × Nat))) × Bool :=
  let ctxMap := createPhraseContextMap beatsPerBar phrases
  (List.range (prog.length - order)).foldl
    (fun acc i =>
      if acc.2 then acc
      else
        match (prog.drop (i + 1)).head? with
        | none => (acc.1, true)
        | some nxt =>
          let ctx := (lookupA i ctxMap).getD
            (PhraseContext.mk "middle" BeatStrength.WEAK false)
          match mkPhraseAwareState ((prog.drop i).take order) ctx.phrasePosition
              ctx.beatStrength ctx.isCadence none with
          | none => (acc.1, true)
          | some enhanced =>
            ((bump2 enhanced nxt acc.1.1,
              if ctx.isCadence then bump2 ((prog.take (i + 1)).drop (i - 1)) nxt acc.1.2
              else acc.1.2),
             false))
    (tbls, false)

/-- Python `PhraseAwareMarkovChain.train_with_phrases` (lines 26-62) as it
actually executes: zip the corpora and run the recording loop until the
first exception; and a run whose loop finishes without raising (only
possible when no pair yields a transition window) still ends by calling
`self._compute_phrase_probabilities()`, a method defined nowhere in the
repository, raising AttributeError. The call therefore always raises;
the first component is the state of the two tables at the moment the
exception escapes the method. -/
def trainWithPhrases (order : Nat) (beatsPerBar : ℚ)
    (progs : List (List JazzChord)) (analyses : List (List Phrase)) :
    (List (PhraseAwareState × List (JazzChord × Nat)) ×
      List (ChordState × List (JazzChord × Nat))) × Bool :=
  let run := (progs.zip analyses).foldl
    (fun acc pa =>
      if acc.2 then acc
      else trainWithPhrasesProg order beatsPerBar acc.1 pa.1 pa.2)
    (([], []), false)
  (run.1, true)

/-- The curated cadence fallback of `_get_cadence_candidates`
(phrase_aware_markov_chain.py lines 160-164). -/
def commonCadences : List (JazzChord × ℚ) :=
  [ (JazzChord.mk "G" "7" [], 6 / 10), (JazzChord.mk "C" "maj7" [], 3 / 10),
    (JazzChord.mk "A" "m7" [], 1 / 10) ]

/-- Python `PhraseAwareMarkovChain._get_cadence_candidates` (lines 150-165): a held
cadence state returns a copy of its raw counter (temperature-scaled only when
`T ≠ 1`); a miss returns the curated cadence distribution. -/
def getCadenceCandidates (pw : ℚ → ℚ → ℚ)
    (cadenceTable : List (ChordState × List (JazzChord × Nat))) (st : ChordState)
    (T : ℚ) : Option (List (JazzChord × ℚ)) :=
  match lookupA st cadenceTable with
  | some ctr =>
    let probs := ctr.map (fun cn => (cn.1, (cn.2 : ℚ)))
    if T ≠ 1 then applyTemperature pw probs T else some probs
  | none => some commonCadences

/-- Scale and mode labels (key_detector.py, enum ScaleType). -/
inductive ScaleType
  | MAJOR
  | NATURAL_MINOR
  | HARMONIC_MINOR
  | MELODIC_MINOR
  | DORIAN
  | MIXOLYDIAN
  | LYDIAN
  | PHRYGIAN
  | LOCRIAN
  | BLUES
  deriving DecidableEq

/-- A detected key (key_detector.py, dataclass Key). -/
structure Key where
  tonic : String
  scaleType : ScaleType
  confidence : ℚ
  deriving DecidableEq

/-- Python `ScaleDetector.index_notes` (key_detector.py lines 46-49). -/
def indexNotes : List (Nat × String) :=
  [ (0, "C"), (1, "C#"), (2, "D"), (3, "Eb"), (4, "E"), (5, "F"),
    (6, "F#"), (7, "G"), (8, "Ab"), (9, "A"), (10, "Bb"), (11, "B") ]

/-- Krumhansl major profile (key_detector.py line 128). -/
def majorProfileRaw : List ℚ :=
  [6.35, 2.23, 3.48, 2.33, 4.38, 4.09, 2.52, 5.19, 2.39, 3.66, 2.29, 2.88]

/-- Krumhansl minor profile (key_detector.py line 129). -/
def minorProfileRaw : List ℚ :=
  [6.33, 2.68, 3.52, 5.38, 2.60, 3.53, 2.54, 4.75, 3.98, 2.69, 3.34, 3.17]

/-- Profile normalisation (lines 132-133): divide by the profile sum. -/
def normalizeProfile (p : List ℚ) : List ℚ :=
  p.map (fun x => x / p.sum)

/-- Python `ScaleDetector._extract_pitch_classes` (lines 100-112): each note
contributes its pitch class `int(duration * 2)` times. -/
def extractPitchClasses (notes : List Note) : Option (List Nat) :=
  (notes.mapM (fun n =>
    (pitchToMidi n.pitch).map (fun m =>
      List.replicate (Int.toNat ⌊n.duration * 2⌋) (m % 12)))).map List.join

/-- Python `ScaleDetector._get_pitch_class_distribution` (lines 167-177). -/
def getPitchClassDistribution (pcs : List Nat) : List ℚ :=
  if pcs = [] then List.replicate 12 0
  else
    let counts := (List.range 12).map (fun i => (pcs.filter (fun pc => decide (pc = i))).length)
    counts.map (fun c => (c : ℚ) / (counts.sum : ℚ))

/-- Python `ScaleDetector._correlate_with_profile` (lines 179-187): dot product of
the distribution with the profile rotated by the tonic. -/
def correlateWithProfile (dist profile : List ℚ) (shift : Nat) : ℚ :=
  ((List.range 12).map (fun i =>
    dist.getD i 0 * profile.getD (Int.toNat (((i : Int) - shift) % 12)) 0)).sum

/-- Python `ScaleDetector._has_minor_sixth` (lines 210-212): literal pitch class 8,
not relative to the detected tonic. -/
def hasMinorSixth (pcs : List Nat) : Bool :=
  pcs.any (fun pc => decide (pc = 8))

/-- Python `ScaleDetector._has_major_seventh` (lines 214-216): literal pitch class 11. -/
def hasMajorSeventh (pcs : List Nat) : Bool :=
  pcs.any (fun pc => decide (pc = 11))

/-- Python `ScaleDetector._has_augmented_second` (lines 218-221): literal pitch
classes 3 and 6. -/
def hasAugmentedSecond (pcs : List Nat) : Bool :=
  pcs.any (fun pc => decide (pc = 3)) && pcs.any (fun pc => decide (pc = 6))

/-- Python `ScaleDetector._has_raised_fourth` (lines 223-225): literal pitch class 6. -/
def hasRaisedFourth (pcs : List Nat) : Bool :=
  pcs.any (fun pc => decide (pc = 6))

/-- Python `ScaleDetector._has_flatted_seventh` (lines 227-229): literal pitch class 10. -/
def hasFlattedSeventh (pcs : List Nat) : Bool :=
  pcs.any (fun pc => decide (pc = 10))

/-- Python `ScaleDetector._apply_jazz_preferences` (lines 189-208). -/
def applyJazzPreferences (detected : ScaleType) (pcs : List Nat) : ScaleType :=
  if detected = ScaleType.NATURAL_MINOR then
    if hasMinorSixth pcs then ScaleType.DORIAN
    else if hasMajorSeventh pcs then ScaleType.MELODIC_MINOR
    else if hasAugmentedSecond pcs then ScaleType.HARMONIC_MINOR
    else detected
  else if detected = ScaleType.MAJOR then
    if hasRaisedFourth pcs then ScaleType.LYDIAN
    else if hasFlattedSeventh pcs then ScaleType.MIXOLYDIAN
    else detected
  else detected

/-- Python `ScaleDetector._krumhansl_schmuckler` (lines 122-165): try all 12 tonics,
major then minor, keeping the strictly best correlation (initially -1 with no
key, so the first comparison always fires); then apply the jazz preferences
to the provisional scale. -/
def krumhanslSchmuckler (pcs : List Nat) : Option Key :=
  let majP := normalizeProfile majorProfileRaw
  let minP := normalizeProfile minorProfileRaw
  let dist := getPitchClassDistribution pcs
  let best := (List.range 12).foldl
    (fun b tonic =>
      let b1 :=
        if b.2.2 < correlateWithProfile dist majP tonic then
          (some tonic, some ScaleType.MAJOR, correlateWithProfile dist majP tonic)
        else b
      if b1.2.2 < correlateWithProfile dist minP tonic then
        (some tonic, some ScaleType.NATURAL_MINOR, correlateWithProfile dist minP tonic)
      else b1)
    ((none : Option Nat), (none : Option ScaleType), (-1 : ℚ))
  match best.1, best.2.1 with
  | some bk, some bs =>
    (lookupA bk indexNotes).map (fun name => Key.mk name (applyJazzPreferences bs pcs) best.2.2)
  | _, _ => none

/-- Python `ScaleDetector.detect_key` with the default "krumhansl" method
(lines 79-98): empty input returns C major with confidence 0, otherwise the
duration-weighted pitch classes feed the Krumhansl-Schmuckler search. -/
def detectKey (notes : List Note) : Option Key :=
  if notes = [] then some (Key.mk "C" ScaleType.MAJOR 0)
  else (extractPitchClasses notes).bind krumhanslSchmuckler

/-- The shape written by `MarkovChain.save_model` (lines 238-252): states and
chords rendered through `str`, probabilities as plain numbers. The JSON dict
key `json.dumps([str(chord), ...])` is modelled as the string list itself
(json round-trips it losslessly). -/
structure SavedModel where
  order : Nat
  transitions : List (List String × List (String × ℚ))
  chordVocab : List String
  startStates : List (List String)
  deriving DecidableEq

/-- Python `MarkovChain.save_model` (lines 238-252). -/
def saveModel (m : MarkovChain) : SavedModel :=
  SavedModel.mk m.order
    (m.probabilities.map (fun sp =>
      (sp.1.map JazzChord.toString, sp.2.map (fun cp => (JazzChord.toString cp.1, cp.2)))))
    (m.chordVocab.map JazzChord.toString)
    (m.startStates.map (fun st => st.map JazzChord.toString))

/-- Python `tuple(c)` for a single `JazzChord` object: the class defines
neither `__iter__` nor `__getitem__`, so iterating it raises TypeError;
modelled as `none`. -/
def iterateJazzChord (c : JazzChord) : Option (List JazzChord) :=
  none

/-- The object state `MarkovChain.load_model` tries to rebuild; the source
start-state comprehension produces a list of lists whose elements are
`tuple(parsed chord)`. -/
structure LoadedModel where
  order : Nat
  probabilities : List (ChordState × List (JazzChord × ℚ))
  chordVocab : List JazzChord
  startStates : List (List (List JazzChord))
  deriving DecidableEq

/-- Python `MarkovChain.load_model` (lines 254-275): transitions and vocabulary are
re-parsed chord by chord; the start-state comprehension applies `tuple(...)`
to each parsed chord (`iterateJazzChord`), so it raises as soon as any saved
start state is non-empty. -/
def loadModel (s : SavedModel) : Option LoadedModel :=
  let probs := s.transitions.map (fun sp =>
    (sp.1.map parseChordString, sp.2.map (fun cp => (parseChordString cp.1, cp.2))))
  let vocab := s.chordVocab.map parseChordString
  match s.startStates.mapM (fun st => st.mapM (fun cs => iterateJazzChord (parseChordString cs))) with
  | none => none
  | some starts => some (LoadedModel.mk s.order probs vocab starts)

/-- Adjacent-gap bound: no note is followed by a rest of `thr` beats or more
(the hypothesis of the equal-division scenario). -/
def gapsBelow (thr : ℚ) : List Note → Bool
  | [] => true
  | [_] => true
  | n1 :: n2 :: rest =>
    decide (n2.start_beat - n1.end_beat < thr) && gapsBelow thr (n2 :: rest)

/-- Sample chord: D minor seventh. -/
def cDm7 : JazzChord := JazzChord.mk "D" "m7" []

/-- Sample chord: G dominant seventh. -/
def cG7 : JazzChord := JazzChord.mk "G" "7" []

/-- Sample chord: C major seventh. -/
def cCmaj7 : JazzChord := JazzChord.mk "C" "maj7" []

/-- Sample chord: A minor seventh. -/
def cAm7 : JazzChord := JazzChord.mk "A" "m7" []

/-- Sample chord with extensions 9 and 13 in that order. -/
def cExtA : JazzChord := JazzChord.mk "C" "maj7" ["9", "13"]

/-- The same chord with the extensions listed in the other order. -/
def cExtB : JazzChord := JazzChord.mk "C" "maj7" ["13", "9"]

/-- A melody whose best Krumhansl correlation is A natural minor and which
contains pitch class 5 = (9 + 8) mod 12 (the note F, a minor sixth above the
tonic A) while containing none of the literal pitch classes 8, 11, 3, 6. -/
def melodyAminor : List Note :=
  [ Note.mk "A4" 0 2 80, Note.mk "C5" 2 1 80, Note.mk "E4" 3 1 80,
    Note.mk "F4" 4 1 80, Note.mk "D4" 5 1 80 ]


theorem foldl_inv {α β : Type} (P : α → Prop) {f : α → β → α} (l : List β)
    (h : ∀ acc x, P acc → P (f acc x)) : ∀ acc, P acc → P (l.foldl f acc) := by
  induction l with
  | nil => intro acc ha; exact ha
  | cons x xs ih => intro acc ha; exact ih _ (h _ _ ha)

theorem lookupA_mem {κ ν : Type} [DecidableEq κ] {k : κ} {v : ν} :
    ∀ {l : List (κ × ν)}, lookupA k l = some v → (k, v) ∈ l := by
  intro l
  induction l with
  | nil => intro h; cases h
  | cons p rest ih =>
    obtain ⟨k2, v2⟩ := p
    intro h
    by_cases hk : k = k2
    · subst hk
      simp [lookupA] at h
      simp [h]
    · simp [lookupA, hk] at h
      exact List.mem_cons_of_mem _ (ih h)

theorem lookupA_map_keyed {κ ν ν2 : Type} [DecidableEq κ] (g : κ × ν → ν2) (k : κ) :
    ∀ (l : List (κ × ν)) {d : ν2},
      lookupA k (l.map (fun p => (p.1, g p))) = some d →
      ∃ v, lookupA k l = some v ∧ d = g (k, v) := by
  intro l
  induction l with
  | nil => intro d h; cases h
  | cons p rest ih =>
    obtain ⟨k2, v2⟩ := p
    intro d h
    by_cases hk : k = k2
    · subst hk
      simp [lookupA] at h ⊢
      exact h.symm
    · simp [lookupA, hk] at h ⊢
      exact ih h

theorem sumValsQ_nonneg {χ : Type} (d : List (χ × ℚ)) (h : ∀ q ∈ d, 0 ≤ q.2) :
    0 ≤ sumValsQ d := by
  induction d with
  | nil => simp [sumValsQ]
  | cons q rest ih =>
    simp only [sumValsQ, List.map_cons, List.sum_cons]
    have h1 := h q (List.mem_cons_self q rest)
    have h2 := ih (fun p hp => h p (List.mem_cons_of_mem _ hp))
    simp only [sumValsQ] at h2
    linarith

theorem sumValsQ_pos {χ : Type} (d : List (χ × ℚ)) (hne : d ≠ [])
    (h : ∀ q ∈ d, 0 < q.2) : 0 < sumValsQ d := by
  cases d with
  | nil => exact absurd rfl hne
  | cons q rest =>
    simp only [sumValsQ, List.map_cons, List.sum_cons]
    have h1 := h q (List.mem_cons_self q rest)
    have h2 := sumValsQ_nonneg rest (fun p hp => le_of_lt (h p (List.mem_cons_of_mem _ hp)))
    simp only [sumValsQ] at h2
    linarith

theorem sumValsN_ge_one {χ : Type} (d : List (χ × Nat)) (hne : d ≠ [])
    (h : ∀ q ∈ d, 1 ≤ q.2) : 1 ≤ sumValsN d := by
  cases d with
  | nil => exact absurd rfl hne
  | cons q rest =>
    simp only [sumValsN, List.map_cons, List.sum_cons]
    have h1 := h q (List.mem_cons_self q rest)
    omega

theorem sumValsQ_map_div {χ : Type} (d : List (χ × Nat)) (c : ℚ) :
    sumValsQ (d.map (fun cn => (cn.1, (cn.2 : ℚ) / c))) = (sumValsN d : ℚ) / c := by
  induction d with
  | nil => simp [sumValsQ, sumValsN]
  | cons q rest ih =>
    simp only [sumValsQ, sumValsN, List.map_cons, List.sum_cons, Nat.cast_add] at ih ⊢
    rw [ih, add_div]

theorem bumpA_ne_nil {κ : Type} [DecidableEq κ] (k : κ) (l : List (κ × Nat)) :
    bumpA k l ≠ [] := by
  cases l with
  | nil => simp [bumpA]
  | cons p rest =>
    obtain ⟨k2, n⟩ := p
    by_cases hk : k = k2 <;> simp [bumpA, hk]

theorem bumpA_pos {κ : Type} [DecidableEq κ] (k : κ) :
    ∀ (l : List (κ × Nat)), (∀ q ∈ l, 1 ≤ q.2) → ∀ q ∈ bumpA k l, 1 ≤ q.2 := by
  intro l
  induction l with
  | nil =>
    intro _ q hq
    simp [bumpA] at hq
    simp [hq]
  | cons p rest ih =>
    obtain ⟨k2, n⟩ := p
    intro h q hq
    by_cases hk : k = k2
    · simp [bumpA, hk] at hq
      rcases hq with hq | hq
      · simp [hq]
      · exact h q (List.mem_cons_of_mem _ hq)
    · simp [bumpA, hk] at hq
      rcases hq with hq | hq
      · exact h q (by simp [hq])
      · exact ih (fun p hp => h p (List.mem_cons_of_mem _ hp)) q hq

theorem bump2_inv {σ χ : Type} [DecidableEq σ] [DecidableEq χ] (s : σ) (c : χ) :
    ∀ (tr : List (σ × List (χ × Nat))),
      (∀ p ∈ tr, p.2 ≠ [] ∧ ∀ q ∈ p.2, 1 ≤ q.2) →
      ∀ p ∈ bump2 s c tr, p.2 ≠ [] ∧ ∀ q ∈ p.2, 1 ≤ q.2 := by
  intro tr
  induction tr with
  | nil =>
    intro _ p hp
    simp [bump2] at hp
    subst hp
    refine ⟨by simp, ?_⟩
    intro q hq
    simp at hq
    simp [hq]
  | cons e rest ih =>
    obtain ⟨s2, ctr⟩ := e
    intro h p hp
    by_cases hs : s = s2
    · simp [bump2, hs] at hp
      rcases hp with hp | hp
      · subst hp
        have he := h (s2, ctr) (List.mem_cons_self _ _)
        exact ⟨bumpA_ne_nil _ _, bumpA_pos _ _ he.2⟩
      · exact h p (List.mem_cons_of_mem _ hp)
    · simp [bump2, hs] at hp
      rcases hp with hp | hp
      · exact h p (by simp [hp])
      · exact ih (fun p hp => h p (List.mem_cons_of_mem _ hp)) p hp

theorem trainProg_inv (order : Nat) (prog : List JazzChord)
    (tr : List (ChordState × List (JazzChord × Nat)))
    (h : ∀ p ∈ tr, p.2 ≠ [] ∧ ∀ q ∈ p.2, 1 ≤ q.2) :
    ∀ p ∈ trainProg order tr prog, p.2 ≠ [] ∧ ∀ q ∈ p.2, 1 ≤ q.2 := by
  unfold trainProg
  refine foldl_inv
    (fun tr : List (ChordState × List (JazzChord × Nat)) =>
      ∀ p ∈ tr, p.2 ≠ [] ∧ ∀ q ∈ p.2, 1 ≤ q.2) _ ?_ tr h
  intro acc i ha
  cases hd : (prog.drop (i + order)).head? with
  | none => simpa [hd] using ha
  | some nxt =>
    simp only [hd]
    exact bump2_inv _ _ _ ha

theorem train_trans_inv (m : MarkovChain) (progs : List (List JazzChord))
    (h : ∀ p ∈ m.transitions, p.2 ≠ [] ∧ ∀ q ∈ p.2, 1 ≤ q.2) :
    ∀ p ∈ (m.train progs).transitions, p.2 ≠ [] ∧ ∀ q ∈ p.2, 1 ≤ q.2 := by
  have key : ∀ (vt : List JazzChord × List (ChordState × List (JazzChord × Nat))),
      (∀ p ∈ vt.2, p.2 ≠ [] ∧ ∀ q ∈ p.2, 1 ≤ q.2) →
      ∀ p ∈ (progs.foldl
        (fun acc prog => (vocabAdd acc.1 prog, trainProg m.order acc.2 prog))
        vt).2, p.2 ≠ [] ∧ ∀ q ∈ p.2, 1 ≤ q.2 := by
    refine foldl_inv
      (fun vt : List JazzChord × List (ChordState × List (JazzChord × Nat)) =>
        ∀ p ∈ vt.2, p.2 ≠ [] ∧ ∀ q ∈ p.2, 1 ≤ q.2) progs ?_
    intro acc prog ha
    exact trainProg_inv m.order prog acc.2 ha
  exact key (m.chordVocab, m.transitions) h

theorem train_probabilities_eq (m : MarkovChain) (progs : List (List JazzChord)) :
    (m.train progs).probabilities = computeProbabilities ((m.train progs).transitions) := rfl

theorem train_prob_inv (order : Nat) (corpus : List (List JazzChord)) :
    ∀ (d : List (JazzChord × ℚ)),
      (∃ st, lookupA st ((MarkovChain.init order).train corpus).probabilities = some d) →
      d ≠ [] ∧ (∀ q ∈ d, 0 < q.2) ∧ sumValsQ d = 1 := by
  intro d ⟨st, hst⟩
  rw [train_probabilities_eq] at hst
  unfold computeProbabilities at hst
  obtain ⟨ctr, hctr, hd⟩ := lookupA_map_keyed _ _ _ hst
  have hmem := lookupA_mem hctr
  have hinv := train_trans_inv (MarkovChain.init order) corpus (by simp [MarkovChain.init])
    _ hmem
  have htot : 1 ≤ sumValsN ctr := sumValsN_ge_one ctr hinv.1 hinv.2
  have htotq : (0 : ℚ) < (sumValsN ctr : ℚ) := by exact_mod_cast htot
  subst hd
  refine ⟨?_, ?_, ?_⟩
  · simp only [ne_eq, List.map_eq_nil_iff]
    exact hinv.1
  · intro q hq
    simp only [List.mem_map] at hq
    obtain ⟨cn, hcn, rfl⟩ := hq
    have : 1 ≤ cn.2 := hinv.2 cn hcn
    have : (0 : ℚ) < (cn.2 : ℚ) := by exact_mod_cast this
    exact div_pos this htotq
  · rw [sumValsQ_map_div]
    exact div_self (ne_of_gt htotq)

theorem trainWithPhrasesProg_tables (order : Nat) (beatsPerBar : ℚ)
    (tbls : List (PhraseAwareState × List (JazzChord × Nat)) ×
      List (ChordState × List (JazzChord × Nat)))
    (prog : List JazzChord) (phrases : List Phrase) :
    (trainWithPhrasesProg order beatsPerBar tbls prog phrases).1 = tbls := by
  unfold trainWithPhrasesProg
  refine foldl_inv
    (fun acc : (List (PhraseAwareState × List (JazzChord × Nat)) ×
        List (ChordState × List (JazzChord × Nat))) × Bool =>
      acc.1 = tbls) _ ?_ (tbls, false) rfl
  intro acc i ha
  by_cases hr : acc.2 = true
  · simpa [hr] using ha
  · simp only [Bool.not_eq_true] at hr
    cases hd : (prog.drop (i + 1)).head? with
    | none => simpa [hr, hd] using ha
    | some nxt => simpa [hr, hd, mkPhraseAwareState] using ha

theorem trainWithPhrases_tables (order : Nat) (beatsPerBar : ℚ)
    (progs : List (List JazzChord)) (analyses : List (List Phrase)) :
    (trainWithPhrases order beatsPerBar progs analyses).1 = ([], []) ∧
      (trainWithPhrases order beatsPerBar progs analyses).2 = true := by
  refine ⟨?_, rfl⟩
  show ((progs.zip analyses).foldl
      (fun (acc : (List (PhraseAwareState × List (JazzChord × Nat)) ×
          List (ChordState × List (JazzChord × Nat))) × Bool) pa =>
        if acc.2 then acc
        else trainWithPhrasesProg order beatsPerBar acc.1 pa.1 pa.2)
      (([], []), false)).1 = ([], [])
  refine foldl_inv
    (fun acc : (List (PhraseAwareState × List (JazzChord × Nat)) ×
        List (ChordState × List (JazzChord × Nat))) × Bool =>
      acc.1 = ([], [])) _ ?_ _ rfl
  intro acc pa ha
  by_cases hr : acc.2 = true
  · simpa [hr] using ha
  · simp only [Bool.not_eq_true] at hr
    simpa [hr, trainWithPhrasesProg_tables] using ha

theorem argmaxGo_lt (xs : List ℚ) : ∀ (bi : Nat) (bv : ℚ) (i : Nat),
    bi < i → argmaxGo bi bv i xs < i + xs.length := by
  induction xs with
  | nil =>
    intro bi bv i h
    simpa [argmaxGo] using h
  | cons x rest ih =>
    intro bi bv i h
    simp only [argmaxGo, List.length_cons]
    by_cases hx : bv < x
    · rw [if_pos hx]
      have := ih i x (i + 1) (Nat.lt_succ_self i)
      omega
    · rw [if_neg hx]
      have := ih bi bv (i + 1) (Nat.lt_succ_of_lt h)
      omega

theorem argmaxIdx_lt {l : List ℚ} {i : Nat} (h : argmaxIdx l = some i) : i < l.length := by
  cases l with
  | nil => cases h
  | cons x rest =>
    simp only [argmaxIdx, Option.some.injEq] at h
    subst h
    have := argmaxGo_lt rest 0 x 1 Nat.zero_lt_one
    simp only [List.length_cons]
    omega

theorem sum_range_indicator_of_ge : ∀ (n i : Nat), n ≤ i →
    (((List.range n).map (fun j => if j = i then (1 : ℚ) else 0)).sum = 0) := by
  intro n
  induction n with
  | zero => intro i _; simp
  | succ k ih =>
    intro i h
    rw [List.range_succ, List.map_append, List.sum_append]
    have h1 := ih i (Nat.le_of_succ_le h)
    have h2 : k ≠ i := by omega
    simp [h1, h2]

theorem sum_range_indicator_of_lt : ∀ (n i : Nat), i < n →
    (((List.range n).map (fun j => if j = i then (1 : ℚ) else 0)).sum = 1) := by
  intro n
  induction n with
  | zero => intro i h; cases h
  | succ k ih =>
    intro i h
    rw [List.range_succ, List.map_append, List.sum_append]
    by_cases hk : i = k
    · subst hk
      rw [sum_range_indicator_of_ge i i (le_refl i)]
      simp
    · have h1 := ih i (by omega)
      have h2 : k ≠ i := fun he => hk he.symm
      simp [h1, h2]

theorem oneHot_sum (l : List (JazzChord × ℚ)) (i : Nat) (h : i < l.length) :
    sumValsQ (l.enum.map (fun jcp => (jcp.2.1, if jcp.1 = i then (1 : ℚ) else 0))) = 1 := by
  unfold sumValsQ
  rw [List.map_map]
  have : (fun jcp : Nat × JazzChord × ℚ => if jcp.1 = i then (1 : ℚ) else 0) =
      ((fun j => if j = i then (1 : ℚ) else 0) ∘ Prod.fst) := rfl
  calc ((l.enum.map (Prod.snd ∘ fun jcp => (jcp.2.1, if jcp.1 = i then (1 : ℚ) else 0)))).sum
      = ((l.enum.map ((fun j => if j = i then (1 : ℚ) else 0) ∘ Prod.fst))).sum := rfl
    _ = (((l.enum.map Prod.fst).map (fun j => if j = i then (1 : ℚ) else 0))).sum := by
        rw [List.map_map]
    _ = (((List.range l.length).map (fun j => if j = i then (1 : ℚ) else 0))).sum := by
        rw [List.enum_map_fst]
    _ = 1 := sum_range_indicator_of_lt _ _ h

theorem oneHot_keys (l : List (JazzChord × ℚ)) (i : Nat) :
    (l.enum.map (fun jcp => (jcp.2.1, if jcp.1 = i then (1 : ℚ) else 0))).map Prod.fst =
      l.map Prod.fst := by
  rw [List.map_map]
  calc l.enum.map (Prod.fst ∘ fun jcp => (jcp.2.1, if jcp.1 = i then (1 : ℚ) else 0))
      = l.enum.map (Prod.fst ∘ Prod.snd) := rfl
    _ = (l.enum.map Prod.snd).map Prod.fst := by rw [List.map_map]
    _ = l.map Prod.fst := by rw [List.enum_map_snd]

theorem oneHot_vals (l : List (JazzChord × ℚ)) (i : Nat) :
    (l.enum.map (fun jcp => (jcp.2.1, if jcp.1 = i then (1 : ℚ) else 0))).map Prod.snd =
      (List.range l.length).map (fun j => if j = i then (1 : ℚ) else 0) := by
  rw [List.map_map]
  calc l.enum.map (Prod.snd ∘ fun jcp => (jcp.2.1, if jcp.1 = i then (1 : ℚ) else 0))
      = l.enum.map ((fun j => if j = i then (1 : ℚ) else 0) ∘ Prod.fst) := rfl
    _ = (l.enum.map Prod.fst).map (fun j => if j = i then (1 : ℚ) else 0) := by
        rw [List.map_map]
    _ = (List.range l.length).map (fun j => if j = i then (1 : ℚ) else 0) := by
        rw [List.enum_map_fst]

theorem randomChoice_some {α : Type} (l : List α) (r : Nat) (h : l ≠ []) :
    ∃ x, randomChoice l r = some x ∧ x ∈ l := by
  have hlen : 0 < l.length := List.length_pos.2 h
  have hm : r % l.length < l.length := Nat.mod_lt _ hlen
  unfold randomChoice
  rw [List.get?_eq_get hm]
  exact ⟨_, rfl, List.get_mem l _ hm⟩

theorem weightedChoice_some (d : List (JazzChord × ℚ)) (r : Nat) (h1 : d ≠ [])
    (h2 : 0 < sumValsQ d) : ∃ c, weightedChoice d r = some c := by
  unfold weightedChoice
  rw [if_neg (by push_neg; exact ⟨h1, h2⟩)]
  have hlen : 0 < d.length := List.length_pos.2 h1
  have hm : r % d.length < d.length := Nat.mod_lt _ hlen
  rw [List.get?_eq_get hm]
  exact ⟨_, rfl⟩

theorem normCounter_good (counts : List (JazzChord × Nat))
    (hpos : ∀ q ∈ counts, 1 ≤ q.2) :
    counts.map (fun cn => (cn.1, (cn.2 : ℚ) / (sumValsN counts : ℚ))) = [] ∨
      0 < sumValsQ (counts.map (fun cn => (cn.1, (cn.2 : ℚ) / (sumValsN counts : ℚ)))) := by
  cases hc : counts with
  | nil => left; simp
  | cons q rest =>
    right
    rw [← hc]
    have hne : counts ≠ [] := by rw [hc]; simp
    rw [sumValsQ_map_div]
    have h1 : 1 ≤ sumValsN counts := sumValsN_ge_one _ hne hpos
    have h2 : (0 : ℚ) < (sumValsN counts : ℚ) := by exact_mod_cast h1
    rw [div_self (ne_of_gt h2)]
    norm_num

theorem globalFreq_good (m : MarkovChain) :
    getGlobalFrequencies m = [] ∨ 0 < sumValsQ (getGlobalFrequencies m) := by
  have hpos : ∀ q ∈ (m.probabilities.foldl (fun acc sp => acc ++ sp.2.map Prod.fst)
      []).foldl (fun ctr c => bumpA c ctr) [], 1 ≤ q.2 := by
    refine foldl_inv
      (fun ctr : List (JazzChord × Nat) => ∀ q ∈ ctr, 1 ≤ q.2) _ ?_ [] (by simp)
    intro acc c ha
    exact bumpA_pos c acc ha
  exact normCounter_good _ hpos

theorem handleUnknown_good (m : MarkovChain) (st : ChordState)
    (hinv : ∀ d, (∃ st2, lookupA st2 m.probabilities = some d) →
      d ≠ [] ∧ (∀ q ∈ d, 0 < q.2) ∧ sumValsQ d = 1) :
    handleUnknownState m st = [] ∨ 0 < sumValsQ (handleUnknownState m st) := by
  unfold handleUnknownState
  by_cases hlen : 1 < st.length
  · rw [if_pos hlen]
    cases hlk : lookupA (st.drop 1) m.probabilities with
    | none => exact globalFreq_good m
    | some d =>
      right
      have := hinv d ⟨_, hlk⟩
      rw [this.2.2]
      norm_num
  · rw [if_neg hlen]
    exact globalFreq_good m

theorem applyTemperature_good (pw : ℚ → ℚ → ℚ) (probs : List (JazzChord × ℚ)) (T : ℚ)
    (hpw : ∀ p e, 0 < p → 0 < pw p e) (hne : probs ≠ []) (hpos : ∀ q ∈ probs, 0 < q.2) :
    ∃ d, applyTemperature pw probs T = some d ∧ 0 < sumValsQ d := by
  unfold applyTemperature
  by_cases hT : 0 < T
  · rw [if_pos hT]
    refine ⟨_, rfl, ?_⟩
    have hs : 0 < sumValsQ (probs.map (fun cp => (cp.1, pw cp.2 (1 / T)))) := by
      refine sumValsQ_pos _ (by simpa using hne) ?_
      intro q hq
      simp only [List.mem_map] at hq
      obtain ⟨cp, hcp, rfl⟩ := hq
      exact hpw _ _ (hpos cp hcp)
    refine sumValsQ_pos _ (by simpa using hne) ?_
    intro q hq
    simp only [List.map_map, List.mem_map] at hq
    obtain ⟨cp, hcp, rfl⟩ := hq
    simp only [Function.comp]
    exact div_pos (hpw _ _ (hpos cp hcp)) hs
  · rw [if_neg hT]
    cases ha : argmaxIdx (probs.map Prod.snd) with
    | none =>
      exfalso
      cases probs with
      | nil => exact hne rfl
      | cons q rest => simp [argmaxIdx] at ha
    | some i =>
      have hi : i < probs.length := by
        have := argmaxIdx_lt ha
        simpa using this
      exact ⟨_, rfl, by rw [oneHot_sum probs i hi]; norm_num⟩

theorem getPossibleNext_good (pw : ℚ → ℚ → ℚ) (m : MarkovChain) (st : ChordState) (T : ℚ)
    (hpw : ∀ p e, 0 < p → 0 < pw p e)
    (hinv : ∀ d, (∃ st2, lookupA st2 m.probabilities = some d) →
      d ≠ [] ∧ (∀ q ∈ d, 0 < q.2) ∧ sumValsQ d = 1) :
    ∃ d, getPossibleNext pw m st T = some d ∧ (d = [] ∨ 0 < sumValsQ d) := by
  unfold getPossibleNext
  cases hlk : lookupA st m.probabilities with
  | none => exact ⟨_, rfl, handleUnknown_good m st hinv⟩
  | some probs =>
    have hp := hinv probs ⟨_, hlk⟩
    simp only
    by_cases hT : T ≠ 1
    · rw [if_pos hT]
      obtain ⟨d, hd, hpos⟩ := applyTemperature_good pw probs T hpw hp.1 hp.2.1
      exact ⟨d, hd, Or.inr hpos⟩
    · rw [if_neg hT]
      refine ⟨probs, rfl, Or.inr ?_⟩
      rw [hp.2.2]
      norm_num

theorem getPossibleNext_empty (pw : ℚ → ℚ → ℚ) (m : MarkovChain) (st : ChordState) (T : ℚ)
    (h : m.probabilities = []) : getPossibleNext pw m st T = some [] := by
  simp [getPossibleNext, handleUnknownState, getGlobalFrequencies, h, lookupA]

theorem padLoop_some (starts : List ChordState) (r : Nat) :
    ∀ (fuel : Nat) (cs : List JazzChord), (cs = [] → starts = []) →
      ∃ l, padLoop starts r fuel cs = some l ∧ l.length = cs.length + fuel ∧ cs <+: l := by
  intro fuel
  induction fuel with
  | zero =>
    intro cs _
    exact ⟨cs, rfl, by simp [padLoop], List.prefix_refl cs⟩
  | succ n ih =>
    intro cs h
    have hcond : ¬ (starts ≠ [] ∧ cs.length = 0) := by
      rintro ⟨hs, hl⟩
      exact hs (h (List.length_eq_zero.1 hl))
    obtain ⟨l, hl, hlen, hpre⟩ := ih (cs ++ [cs.getLastD (JazzChord.mk "C" "maj7" [])])
      (by simp)
    refine ⟨l, ?_, ?_, ?_⟩
    · simp only [padLoop, if_neg hcond]
      exact hl
    · rw [hlen]
      simp only [List.length_append, List.length_cons, List.length_nil]
      omega
    · have hap := List.prefix_append cs [cs.getLastD (JazzChord.mk "C" "maj7" [])]
      exact hap.trans hpre

theorem padSequence_some (m : MarkovChain) (r : Nat) (chords : List JazzChord) :
    ∃ pr, padSequence m r chords = some pr := by
  unfold padSequence
  by_cases hc : chords = [] ∧ m.startStates ≠ []
  · rw [if_pos hc]
    obtain ⟨st, hst, _⟩ := randomChoice_some m.startStates r hc.2
    exact ⟨(st, chords), by rw [hst]; rfl⟩
  · rw [if_neg hc]
    obtain ⟨l, hl, _, _⟩ := padLoop_some m.startStates r (m.order - chords.length) chords
      (by
        intro hnil
        by_contra hs
        exact hc ⟨hnil, hs⟩)
    exact ⟨(l, l), by rw [hl]; rfl⟩

theorem fallbackPool_ne_nil : commonChords ≠ [] := by
  simp [commonChords]

theorem fallback_mem (prev : Option JazzChord) (r : Nat) :
    ∃ c, getRandomDiatonicFallback prev r = some c ∧ c ∈ fallbackPool := by
  have hchoice : ∃ c, randomChoice commonChords r = some c ∧ c ∈ fallbackPool := by
    obtain ⟨c, hc, hmem⟩ := randomChoice_some commonChords r fallbackPool_ne_nil
    exact ⟨c, hc, List.mem_append_left _ hmem⟩
  cases prev with
  | none => exact hchoice
  | some p =>
    simp only [getRandomDiatonicFallback]
    by_cases hp : p ∈ commonChords
    · rw [if_pos hp]
      cases hlk : lookupA (JazzChord.toString p) commonProgressions with
      | none => exact hchoice
      | some nextStr =>
        refine ⟨parseChordString nextStr, rfl, ?_⟩
        refine List.mem_append_right _ ?_
        exact List.mem_map.2 ⟨_, lookupA_mem hlk, rfl⟩
    · rw [if_neg hp]
      exact hchoice

set_option maxRecDepth 400000 in
/-- C3: the refinement of a provisional minor key tests the literal pitch
classes 8, 11, and 3 with 6 - correct only for tonic C - rather than classes
relative to the detected tonic. On this melody the detected key is A natural
minor and the melody contains pitch class (9 + 8) mod 12 = 5 (the note F), so
the claim demands dorian, but the code leaves the scale natural minor. -/
theorem claim3_code_divergence :
    ((detectKey melodyAminor).map (fun k => (k.tonic, k.scaleType)) =
      some ("A", ScaleType.NATURAL_MINOR)) ∧
      (extractPitchClasses melodyAminor).map (fun pcs => decide ((9 + 8) % 12 ∈ pcs)) =
        some true ∧
      ScaleType.NATURAL_MINOR ≠ ScaleType.DORIAN := by
  with_unfolding_all decide

/-- C4: at the only index of the order-2 window over Dm7 G7 Cmaj7 Am7 the
loop body of train_with_phrases binds next_chord = progression[i + 1] = G7, a
chord inside the window itself, whereas the plain transition for the same
window records Cmaj7 = progression[i + order]; and immediately afterwards the
PhraseAwareState construction raises TypeError, so not even that wrong chord
is ever recorded under any phrase state - training leaves both phrase tables
empty and raises. -/
theorem claim4_code_divergence :
    (([cDm7, cG7, cCmaj7, cAm7].drop (0 + 1)).head? = some cG7) ∧
      lookupA [cDm7, cG7]
        ((MarkovChain.init 2).train [[cDm7, cG7, cCmaj7, cAm7]]).transitions =
        some [(cCmaj7, 1)] ∧
      cG7 ≠ cCmaj7 ∧
      (trainWithPhrases 2 4 [[cDm7, cG7, cCmaj7, cAm7]] [[]]).1 = ([], []) ∧
      (trainWithPhrases 2 4 [[cDm7, cG7, cCmaj7, cAm7]] [[]]).2 = true := by
  with_unfolding_all decide

/-- C5 counterexample: applying temperature -1 to the distribution that gives
Am7 and G7 probability one half each raises nothing - it returns the one-hot
distribution on the first maximal entry. -/
theorem claim5_counterexample :
    applyTemperature (fun p _ => p) [(cAm7, 1 / 2), (cG7, 1 / 2)] (-1) =
      some [(cAm7, 1), (cG7, 0)] := by
  with_unfolding_all decide

/-- C6 counterexample: two chords with equal root, equal quality, and the same
extension labels in a different order satisfy the claim's premise, yet Python
equality - which compares extension lists in order - declares them unequal. -/
theorem claim6_counterexample :
    (cExtA.root = cExtB.root ∧ cExtA.quality = cExtB.quality ∧
      cExtA.extensions.Perm cExtB.extensions) ∧
      JazzChord.pyEq cExtA cExtB = false := by
  with_unfolding_all decide

/-- C6 as amended: chord equality is structural with extensions compared as
ordered lists (equal exactly when root, quality, and the extension lists all
agree), while the hash key sorts the extensions, so chords whose extensions
agree up to reordering get equal hash keys. -/
theorem claim6_amended (a b : JazzChord) :
    (JazzChord.pyEq a b = true ↔
      a.root = b.root ∧ a.quality = b.quality ∧ a.extensions = b.extensions) ∧
      (a.root = b.root → a.quality = b.quality → a.extensions.Perm b.extensions →
        a.hashKey = b.hashKey) := by
  constructor
  · simp [JazzChord.pyEq, Bool.and_eq_true, beq_iff_eq, and_assoc]
  · intro h1 h2 h3
    haveI ht : IsTotal String (fun a b : String => a ≤ b) := ⟨fun x y => le_total x y⟩
    haveI htr : IsTrans String (fun a b : String => a ≤ b) :=
      ⟨fun x y z hx hy => le_trans hx hy⟩
    haveI ha : IsAntisymm String (fun a b : String => a ≤ b) :=
      ⟨fun x y hx hy => le_antisymm hx hy⟩
    unfold JazzChord.hashKey
    rw [h1, h2]
    have hperm : (List.insertionSort (fun a b : String => a ≤ b) a.extensions).Perm
        (List.insertionSort (fun a b : String => a ≤ b) b.extensions) :=
      ((List.perm_insertionSort _ _).trans h3).trans (List.perm_insertionSort _ _).symm
    have hsort : List.insertionSort (fun a b : String => a ≤ b) a.extensions =
        List.insertionSort (fun a b : String => a ≤ b) b.extensions :=
      List.eq_of_perm_of_sorted hperm (List.sorted_insertionSort _ _)
        (List.sorted_insertionSort _ _)
    rw [hsort]

/-- C6 witness: the amended statement applied to the concrete pair - the
equality test agrees with full structural equality, and the reordered
extension lists produce equal hash keys. -/
theorem claim6_witness :
    JazzChord.pyEq cExtA cExtA = true ∧ JazzChord.hashKey cExtA = JazzChord.hashKey cExtB :=
  ⟨(claim6_amended cExtA cExtA).1.mpr ⟨rfl, rfl, rfl⟩,
    (claim6_amended cExtA cExtB).2 rfl rfl (by decide)⟩

/-- C7 counterexample: training an order-1 model on [[Am7, Dm7]] and then
again on [[Am7, G7]] leaves the state (Am7,) with the mixed distribution
Dm7, G7 at one half each, not the fresh second-corpus distribution G7 at 1. -/
theorem claim7_counterexample :
    (((MarkovChain.init 1).train [[cAm7, cDm7]]).train [[cAm7, cG7]]).probabilities ≠
      ((MarkovChain.init 1).train [[cAm7, cG7]]).probabilities := by
  with_unfolding_all decide

/-- C7 as amended: a second call to train accumulates - the transition counts,
hence the probability distributions, and the vocabulary equal those of a fresh
model trained on the concatenation of the two corpora; only the start-state
list is recomputed from the second corpus alone. -/
theorem claim7_amended (order : Nat) (c1 c2 : List (List JazzChord)) :
    (((MarkovChain.init order).train c1).train c2).probabilities =
        ((MarkovChain.init order).train (c1 ++ c2)).probabilities ∧
      (((MarkovChain.init order).train c1).train c2).chordVocab =
        ((MarkovChain.init order).train (c1 ++ c2)).chordVocab ∧
      (((MarkovChain.init order).train c1).train c2).startStates =
        ((MarkovChain.init order).train c2).startStates := by
  simp only [MarkovChain.train, MarkovChain.init, List.foldl_append]
  exact ⟨trivial, trivial, trivial⟩

/-- C9: saving the order-2 model trained on Dm7 G7 Cmaj7 and loading it back
fails - the trained model has the non-empty start-state list [(Dm7, G7)], and
`load_model` applies `tuple()` to each single parsed chord while rebuilding
start states, raising TypeError (a JazzChord is not iterable). -/
theorem claim9_load_raises :
    loadModel (saveModel ((MarkovChain.init 2).train [[cDm7, cG7, cCmaj7]])) = none ∧
      ((MarkovChain.init 2).train [[cDm7, cG7, cCmaj7]]).startStates ≠ [] := by
  with_unfolding_all decide

/-- C5 as amended: a non-positive temperature (the code comment only mentions
0, but the test is `temperature > 0`) is silently resolved, never raised on:
the result is the one-hot distribution that keeps every chord key and puts
probability 1 at the first index of maximal probability, 0 elsewhere. No
ConfigurationError exists anywhere in the code. -/
theorem claim5_amended (pw : ℚ → ℚ → ℚ) (probs : List (JazzChord × ℚ)) (T : ℚ)
    (hT : T ≤ 0) (hne : probs ≠ []) :
    ∃ i out, argmaxIdx (probs.map Prod.snd) = some i ∧
      applyTemperature pw probs T = some out ∧
      out.map Prod.fst = probs.map Prod.fst ∧
      out.map Prod.snd = (List.range probs.length).map (fun j => if j = i then (1 : ℚ) else 0) ∧
      sumValsQ out = 1 := by
  unfold applyTemperature
  rw [if_neg (not_lt.2 hT)]
  cases ha : argmaxIdx (probs.map Prod.snd) with
  | none =>
    exfalso
    cases probs with
    | nil => exact hne rfl
    | cons q rest => simp [argmaxIdx] at ha
  | some i =>
    have hi : i < probs.length := by
      have := argmaxIdx_lt ha
      simpa using this
    exact ⟨i, _, rfl, rfl, oneHot_keys probs i, oneHot_vals probs i, oneHot_sum probs i hi⟩

/-- C5 witness: the amended statement at the concrete distribution with values
two thirds and one third and temperature -2. -/
theorem claim5_witness :
    ∃ i out, argmaxIdx ([(cAm7, 2 / 3), (cG7, 1 / 3)].map Prod.snd) = some i ∧
      applyTemperature (fun p _ => p) [(cAm7, 2 / 3), (cG7, 1 / 3)] (-2) = some out ∧
      out.map Prod.fst = [(cAm7, (2 : ℚ) / 3), (cG7, 1 / 3)].map Prod.fst ∧
      out.map Prod.snd =
        (List.range ([(cAm7, (2 : ℚ) / 3), (cG7, 1 / 3)]).length).map
          (fun j => if j = i then (1 : ℚ) else 0) ∧
      sumValsQ out = 1 :=
  claim5_amended (fun p _ => p) [(cAm7, 2 / 3), (cG7, 1 / 3)] (-2) (by norm_num) (by simp)

/-- C1: for the plain model the claim holds - every distribution held by the
trained probability table sums exactly to 1, hence within 1e-9 - but the
phrase-aware model can never hold any cadence state: on its first transition
window train_with_phrases constructs a PhraseAwareState, and the class has no
generated or hand-written constructor, so the call raises TypeError before
either table is touched (and a run with no window still raises at the
undefined _compute_phrase_probabilities), leaving both phrase tables empty on
every input - no cadence distribution whose values could sum to anything is
ever produced. -/
theorem claim1_code_divergence :
    (∀ (order : Nat) (corpus : List (List JazzChord)) (st : ChordState)
        (d : List (JazzChord × ℚ)),
      lookupA st ((MarkovChain.init order).train corpus).probabilities = some d →
      sumValsQ d = 1) ∧
    (∀ (order : Nat) (beatsPerBar : ℚ) (progs : List (List JazzChord))
        (analyses : List (List Phrase)),
      (trainWithPhrases order beatsPerBar progs analyses).1 = ([], []) ∧
        (trainWithPhrases order beatsPerBar progs analyses).2 = true) := by
  constructor
  · intro order corpus st d h
    exact (train_prob_inv order corpus d ⟨st, h⟩).2.2
  · intro order beatsPerBar progs analyses
    exact trainWithPhrases_tables order beatsPerBar progs analyses

/-- C1 witness: the statement applied concretely - the plain distribution
stored for the state (Dm7, G7) after training on Dm7 G7 Cmaj7 sums to 1, and
phrase-aware training (order 1) on Am7 Dm7 G7 ends with both phrase tables
empty and the exception flag set. -/
theorem claim1_witness :
    sumValsQ [(cCmaj7, (1 : ℚ))] = 1 ∧
      ((trainWithPhrases 1 4 [[cAm7, cDm7, cG7]] [[]]).1 = ([], []) ∧
        (trainWithPhrases 1 4 [[cAm7, cDm7, cG7]] [[]]).2 = true) :=
  ⟨claim1_code_divergence.1 2 [[cDm7, cG7, cCmaj7]] [cDm7, cG7] [(cCmaj7, (1 : ℚ))]
      (by with_unfolding_all decide),
    claim1_code_divergence.2 1 4 [[cAm7, cDm7, cG7]] [[]]⟩

theorem predict_after_pad (pw : ℚ → ℚ → ℚ) (M : MarkovChain) (st : ChordState)
    (hist2 : List JazzChord) (T : ℚ) (r2 r3 : Nat)
    (hpw : ∀ p e, 0 < p → 0 < pw p e)
    (hinv : ∀ d, (∃ st2, lookupA st2 M.probabilities = some d) →
      d ≠ [] ∧ (∀ q ∈ d, 0 < q.2) ∧ sumValsQ d = 1) :
    ∃ c, (match getPossibleNext pw M st T with
      | none => (none : Option JazzChord)
      | some cands =>
        if cands = [] then getRandomDiatonicFallback hist2.getLast? r3
        else weightedChoice cands r2) = some c ∧
      (M.probabilities = [] → c ∈ fallbackPool) := by
  obtain ⟨d, hd, hgood⟩ := getPossibleNext_good pw M st T hpw hinv
  rw [hd]
  by_cases hd0 : d = []
  · simp only [if_pos hd0]
    obtain ⟨c, hc, hmem⟩ := fallback_mem hist2.getLast? r3
    exact ⟨c, hc, fun _ => hmem⟩
  · simp only [if_neg hd0]
    have hsum : 0 < sumValsQ d := by
      rcases hgood with h | h
      · exact absurd h hd0
      · exact h
    obtain ⟨c, hc⟩ := weightedChoice_some d r2 hd0 hsum
    refine ⟨c, hc, ?_⟩
    intro hp
    exfalso
    have := getPossibleNext_empty pw M st T hp
    rw [this] at hd
    exact hd0 (Option.some.inj hd).symm

/-- C2: on a model trained on any corpus (the empty one included), and for
every history, temperature, and random draws, predict_next returns a chord
and never fails; when the model holds no states at all the returned chord
comes from the fixed curated pool (the curated chord list together with the
parsed successors of its progression table). The fallback chain itself is the
definition of `handleUnknownState`: drop the oldest chord of the state when
the order exceeds 1 and the reduced state is known, else the normalised
global next-chord frequencies, else - via the empty-candidate test - the
curated fallback. The abstract `pw` stands for `numpy.power`, assumed only to
map positives to positives as real exponentiation does. -/
theorem claim2_predict_total (order : Nat) (corpus : List (List JazzChord))
    (hist : List JazzChord) (T : ℚ) (pw : ℚ → ℚ → ℚ) (r1 r2 r3 : Nat)
    (hpw : ∀ p e, 0 < p → 0 < pw p e) :
    ∃ c, (predictNext pw ((MarkovChain.init order).train corpus) hist T r1 r2 r3).1 =
        some c ∧
      (((MarkovChain.init order).train corpus).probabilities = [] → c ∈ fallbackPool) := by
  have hinv := train_prob_inv order corpus
  unfold predictNext
  by_cases hlen : hist.length < ((MarkovChain.init order).train corpus).order
  · rw [if_pos hlen]
    obtain ⟨pr, hpr⟩ := padSequence_some ((MarkovChain.init order).train corpus) r1 hist
    rw [hpr]
    exact predict_after_pad pw _ pr.1 pr.2 T r2 r3 hpw hinv
  · rw [if_neg hlen]
    exact predict_after_pad pw _ _ hist T r2 r3 hpw hinv

/-- C2 witness: the totality statement at order 2, the empty corpus, the empty
history, and temperature 1; the trained model holds no states, so the chord
comes from the curated pool. -/
theorem claim2_witness :
    ∃ c, (predictNext (fun p _ => p) ((MarkovChain.init 2).train []) [] 1 0 0 0).1 =
        some c ∧
      (((MarkovChain.init 2).train []).probabilities = [] → c ∈ fallbackPool) :=
  claim2_predict_total 2 [] [] 1 (fun p _ => p) 0 0 0 (fun p e h => h)

/-- C10: predict_next mutates its caller's history list exactly as claimed -
a non-empty history shorter than the order, or an empty history when no start
states exist, is padded in place by appends until its length equals the model
order (the original history stays a prefix); a history of at least the order
is left untouched. -/
theorem claim10_frame (m : MarkovChain) (hist : List JazzChord) (T : ℚ)
    (pw : ℚ → ℚ → ℚ) (r1 r2 r3 : Nat) :
    (m.order ≤ hist.length → (predictNext pw m hist T r1 r2 r3).2 = hist) ∧
      (hist ≠ [] → hist.length < m.order →
        (predictNext pw m hist T r1 r2 r3).2.length = m.order ∧
          hist <+: (predictNext pw m hist T r1 r2 r3).2) ∧
      (hist = [] → m.startStates = [] →
        (predictNext pw m hist T r1 r2 r3).2.length = m.order ∧
          hist <+: (predictNext pw m hist T r1 r2 r3).2) := by
  refine ⟨?_, ?_, ?_⟩
  · intro h
    unfold predictNext
    rw [if_neg (not_lt.2 h)]
  · intro hne hlt
    obtain ⟨l, hl, hlen, hpre⟩ := padLoop_some m.startStates r1 (m.order - hist.length)
      hist (fun h => absurd h hne)
    have hps : padSequence m r1 hist = some (l, l) := by
      unfold padSequence
      rw [if_neg (fun hc => hne hc.1), hl]
      rfl
    unfold predictNext
    rw [if_pos hlt, hps]
    constructor
    · show l.length = m.order
      omega
    · exact hpre
  · intro hnil hss
    subst hnil
    by_cases ho : List.length ([] : List JazzChord) < m.order
    · obtain ⟨l, hl, hlen, hpre⟩ := padLoop_some m.startStates r1 (m.order - 0)
        [] (fun _ => hss)
      have hps : padSequence m r1 [] = some (l, l) := by
        unfold padSequence
        rw [if_neg (fun hc => hc.2 hss)]
        simp only [List.length_nil]
        rw [hl]
        rfl
      unfold predictNext
      rw [if_pos ho, hps]
      constructor
      · show l.length = m.order
        simpa using hlen
      · exact hpre
    · unfold predictNext
      rw [if_neg ho]
      constructor
      · show List.length ([] : List JazzChord) = m.order
        simp only [List.length_nil] at ho ⊢
        omega
      · exact List.nil_prefix

/-- C10 witness: on a model of order 2 with no start states, the one-chord
history is padded in place to length 2 with the original chord kept as a
prefix, and a two-chord history is left unchanged. -/
theorem claim10_witness :
    ((predictNext (fun p _ => p) (MarkovChain.init 2) [cDm7] 1 0 0 0).2.length = 2 ∧
      [cDm7] <+: (predictNext (fun p _ => p) (MarkovChain.init 2) [cDm7] 1 0 0 0).2) ∧
      (predictNext (fun p _ => p) (MarkovChain.init 2) [cDm7, cG7] 1 0 0 0).2 =
        [cDm7, cG7] :=
  ⟨(claim10_frame (MarkovChain.init 2) [cDm7] 1 (fun p _ => p) 0 0 0).2.1
      (by decide) (by decide),
    (claim10_frame (MarkovChain.init 2) [cDm7, cG7] 1 (fun p _ => p) 0 0 0).1 (by decide)⟩

theorem mapM_some_of_forall {α β : Type} (f : α → Option β) :
    ∀ (l : List α), (∀ x ∈ l, (f x).isSome) → ∃ ys, l.mapM f = some ys := by
  intro l
  induction l with
  | nil => intro _; exact ⟨[], rfl⟩
  | cons x xs ih =>
    intro h
    obtain ⟨y, hy⟩ := Option.isSome_iff_exists.1 (h x (List.mem_cons_self _ _))
    obtain ⟨ys, hys⟩ := ih (fun z hz => h z (List.mem_cons_of_mem _ hz))
    refine ⟨y :: ys, ?_⟩
    rw [List.mapM_cons, hy, hys]
    rfl

theorem identifyImportantNotes_some (bpb : ℚ) (notes : List Note)
    (hp : ∀ n ∈ notes, (pitchToMidi n.pitch).isSome) :
    ∃ l, identifyImportantNotes bpb notes = some l := by
  unfold identifyImportantNotes
  by_cases hn : notes = []
  · rw [if_pos hn]
    exact ⟨[], rfl⟩
  · rw [if_neg hn]
    obtain ⟨ys, hys⟩ := mapM_some_of_forall _ notes hp
    rw [hys]
    exact ⟨_, rfl⟩

theorem analyzeSingle_some (bpb bars : ℚ) (g : List Note) (hne : g ≠ [])
    (hp : ∀ n ∈ g, (pitchToMidi n.pitch).isSome) :
    ∃ p, analyzeSinglePhrase bpb g bars = some p ∧ p.notes = g := by
  obtain ⟨n0, rest, rfl⟩ := List.exists_cons_of_ne_nil hne
  obtain ⟨l, hl⟩ := identifyImportantNotes_some bpb (n0 :: rest) hp
  simp only [analyzeSinglePhrase]
  rw [hl]
  exact ⟨_, rfl, rfl⟩

theorem mapM_analyze_proj (bpb bars : ℚ) :
    ∀ (gs : List (List Note)),
      (∀ g ∈ gs, ∃ p, analyzeSinglePhrase bpb g bars = some p ∧ p.notes = g) →
      ∃ ps, gs.mapM (fun g => analyzeSinglePhrase bpb g bars) = some ps ∧
        ps.map Phrase.notes = gs := by
  intro gs
  induction gs with
  | nil => intro _; exact ⟨[], rfl, rfl⟩
  | cons g rest ih =>
    intro h
    obtain ⟨p, hp, hpn⟩ := h g (List.mem_cons_self _ _)
    obtain ⟨ps, hps, hproj⟩ := ih (fun z hz => h z (List.mem_cons_of_mem _ hz))
    refine ⟨p :: ps, ?_, ?_⟩
    · rw [List.mapM_cons, hp, hps]
      rfl
    · simp [hpn, hproj]

theorem gapsBelow_head {thr : ℚ} {n1 n2 : Note} {rest : List Note}
    (h : gapsBelow thr (n1 :: n2 :: rest) = true) :
    n2.start_beat - n1.end_beat < thr ∧ gapsBelow thr (n2 :: rest) = true := by
  simpa [gapsBelow, Bool.and_eq_true, decide_eq_true_eq] using h

theorem splitByRests_no_gap :
    ∀ (notes : List Note), gapsBelow (3 / 2) notes = true →
      ∀ (acc : List Note), notes ≠ [] → splitByRests acc notes = [acc ++ notes] := by
  intro notes
  induction notes with
  | nil => intro _ acc h; exact absurd rfl h
  | cons n1 rest ih =>
    intro hg acc _
    cases rest with
    | nil => simp [splitByRests]
    | cons n2 rest2 =>
      obtain ⟨hlt, htail⟩ := gapsBelow_head hg
      unfold splitByRests
      rw [if_neg (not_le.2 hlt)]
      rw [ih htail (acc ++ [n1]) (by simp)]
      simp

theorem sortNotes_ne_nil {notes : List Note} (h : notes ≠ []) : sortNotes notes ≠ [] := by
  intro hs
  apply h
  have hperm := List.perm_insertionSort
    (fun a b : Note => a.start_beat ≤ b.start_beat) notes
  rw [sortNotes] at hs
  rw [hs] at hperm
  exact hperm.symm.eq_nil

theorem sortNotes_mem {notes : List Note} {n : Note} (h : n ∈ sortNotes notes) :
    n ∈ notes := by
  have hperm := List.perm_insertionSort
    (fun a b : Note => a.start_beat ≤ b.start_beat) notes
  exact hperm.mem_iff.1 h

theorem divideIntoEqual_eight (s : List Note) :
    divideIntoEqualPhrases 4 s 8 =
      [ s.filter (fun n => decide ((0 : ℚ) ≤ n.start_beat) && decide (n.start_beat < 16)),
        s.filter (fun n => decide ((16 : ℚ) ≤ n.start_beat) &&
          decide (n.start_beat < 32)) ].filter (fun g => decide (g ≠ [])) := by
  unfold divideIntoEqualPhrases
  have h1 : (if (8 : ℚ) ≤ 8 then (4 : ℚ) else if (4 : ℚ) ≤ 8 then 2 else 2) = 4 := by
    norm_num
  rw [h1]
  have h2 : Int.toNat ⌈(8 : ℚ) / 4⌉ = 2 := by
    norm_num
    rfl
  have h3 : List.range 2 = [0, 1] := rfl
  simp only [h2, h3, List.foldl_cons, List.foldl_nil]
  have e0 : ∀ n : Note,
      (decide ((↑(0 : ℕ) * ((4 : ℚ) * 4)) ≤ n.start_beat) &&
        decide (n.start_beat < (↑(0 : ℕ) + 1) * ((4 : ℚ) * 4))) =
      (decide ((0 : ℚ) ≤ n.start_beat) && decide (n.start_beat < 16)) := by
    intro n
    norm_num
  have e1 : ∀ n : Note,
      (decide ((↑(1 : ℕ) * ((4 : ℚ) * 4)) ≤ n.start_beat) &&
        decide (n.start_beat < (↑(1 : ℕ) + 1) * ((4 : ℚ) * 4))) =
      (decide ((16 : ℚ) ≤ n.start_beat) && decide (n.start_beat < 32)) := by
    intro n
    norm_num
  simp only [e0, e1]
  by_cases h0 : s.filter (fun n => decide ((0 : ℚ) ≤ n.start_beat) &&
      decide (n.start_beat < 16)) = [] <;>
    by_cases hb1 : s.filter (fun n => decide ((16 : ℚ) ≤ n.start_beat) &&
      decide (n.start_beat < 32)) = [] <;>
    simp [h0, hb1, List.filter]

/-- C8 counterexample: a single note, with no inter-note gap at all and
total_bars = 8, yields one phrase, not the claimed two of four bars each -
only windows containing a note produce a phrase. -/
theorem claim8_counterexample :
    (analyzePhrases 4 [Note.mk "C4" 0 1 80] 8).map List.length = some 1 ∧
      (analyzePhrases 4 [Note.mk "C4" 0 1 80] 8).map List.length ≠ some 2 := by
  with_unfolding_all decide

/-- C8 as amended: (a) two notes separated by a 2.0-beat rest are split at
that rest into exactly two phrases, one carrying each note, as claimed; (b)
with no gap of at least 1.5 beats and total_bars = 8 the sorted melody is
divided into the two 4-bar windows [0, 16) and [16, 32) (in beats), and one
phrase is produced per window that contains at least one note start - so two
phrases only when both windows are inhabited, each phrase holding exactly its
window's notes. -/
theorem claim8_amended :
    (∀ (n1 n2 : Note) (bars : ℚ),
      (pitchToMidi n1.pitch).isSome → (pitchToMidi n2.pitch).isSome →
      0 ≤ n1.duration → n2.start_beat - n1.end_beat = 2 →
      ∃ ps, analyzePhrases 4 [n1, n2] bars = some ps ∧
        ps.map Phrase.notes = [[n1], [n2]]) ∧
    (∀ (notes : List Note), notes ≠ [] →
      (∀ n ∈ notes, (pitchToMidi n.pitch).isSome) →
      gapsBelow (3 / 2) (sortNotes notes) = true →
      ∃ ps, analyzePhrases 4 notes 8 = some ps ∧
        ps.map Phrase.notes =
          [ (sortNotes notes).filter (fun n => decide ((0 : ℚ) ≤ n.start_beat) &&
              decide (n.start_beat < 16)),
            (sortNotes notes).filter (fun n => decide ((16 : ℚ) ≤ n.start_beat) &&
              decide (n.start_beat < 32)) ].filter (fun g => decide (g ≠ []))) := by
  constructor
  · intro n1 n2 bars hp1 hp2 hdur hgap
    have hle : n1.start_beat ≤ n2.start_beat := by
      unfold Note.end_beat at hgap
      linarith
    have hsort : sortNotes [n1, n2] = [n1, n2] := by
      simp [sortNotes, List.insertionSort, List.orderedInsert, hle]
    have hsplit : splitByRests [] [n1, n2] = [[n1], [n2]] := by
      unfold splitByRests
      rw [if_pos (by rw [hgap]; norm_num)]
      simp [splitByRests]
    have hmem : ∀ g ∈ [[n1], [n2]], ∃ p, analyzeSinglePhrase 4 g bars = some p ∧
        p.notes = g := by
      intro g hg
      simp only [List.mem_cons, List.mem_singleton] at hg
      rcases hg with rfl | rfl | h
      · refine analyzeSingle_some 4 bars [n1] (by simp) ?_
        intro n hn
        simp only [List.mem_singleton] at hn
        subst hn
        exact hp1
      · refine analyzeSingle_some 4 bars [n2] (by simp) ?_
        intro n hn
        simp only [List.mem_singleton] at hn
        subst hn
        exact hp2
      · cases h
    obtain ⟨ps, hps, hproj⟩ := mapM_analyze_proj 4 bars [[n1], [n2]] hmem
    refine ⟨ps, ?_, hproj⟩
    unfold analyzePhrases
    rw [if_neg (by simp)]
    simp only [hsort, detectPhrasesByRests, hsplit]
    rw [if_neg (by norm_num)]
    exact hps
  · intro notes hne hp hg
    have hsne : sortNotes notes ≠ [] := sortNotes_ne_nil hne
    have hsplit : splitByRests [] (sortNotes notes) = [sortNotes notes] := by
      rw [splitByRests_no_gap (sortNotes notes) hg [] hsne]
      simp
    have hdiv := divideIntoEqual_eight (sortNotes notes)
    have hmem : ∀ g ∈ [ (sortNotes notes).filter (fun n => decide ((0 : ℚ) ≤ n.start_beat) &&
          decide (n.start_beat < 16)),
        (sortNotes notes).filter (fun n => decide ((16 : ℚ) ≤ n.start_beat) &&
          decide (n.start_beat < 32)) ].filter (fun g => decide (g ≠ [])),
        ∃ p, analyzeSinglePhrase 4 g 8 = some p ∧ p.notes = g := by
      intro g hgmem
      have hgne : g ≠ [] := by
        have := (List.mem_filter.1 hgmem).2
        simpa using this
      have hgin := (List.mem_filter.1 hgmem).1
      refine analyzeSingle_some 4 8 g hgne ?_
      intro n hn
      have hnin : n ∈ sortNotes notes := by
        simp only [List.mem_cons, List.mem_singleton] at hgin
        rcases hgin with rfl | rfl | h
        · exact (List.mem_filter.1 hn).1
        · exact (List.mem_filter.1 hn).1
        · cases h
      exact hp n (sortNotes_mem hnin)
    obtain ⟨ps, hps, hproj⟩ := mapM_analyze_proj 4 8 _ hmem
    refine ⟨ps, ?_, hproj⟩
    unfold analyzePhrases
    rw [if_neg hne]
    simp only [detectPhrasesByRests, hsplit]
    rw [if_pos (by norm_num)]
    rw [hdiv]
    exact hps

/-- C8 witness: the amended statement at concrete inputs - two notes with a
2.0-beat rest split into two one-note phrases, and a gap-free two-note melody
spanning both 4-bar windows produces one phrase per window. -/
theorem claim8_witness :
    (∃ ps, analyzePhrases 4 [Note.mk "C4" 0 1 80, Note.mk "D4" 3 1 80] 8 = some ps ∧
      ps.map Phrase.notes = [[Note.mk "C4" 0 1 80], [Note.mk "D4" 3 1 80]]) ∧
    (∃ ps, analyzePhrases 4 [Note.mk "C4" 0 (31 / 2) 80, Note.mk "C4" 16 16 80] 8 =
        some ps ∧
      ps.map Phrase.notes =
        [ (sortNotes [Note.mk "C4" 0 (31 / 2) 80, Note.mk "C4" 16 16 80]).filter
            (fun n => decide ((0 : ℚ) ≤ n.start_beat) && decide (n.start_beat < 16)),
          (sortNotes [Note.mk "C4" 0 (31 / 2) 80, Note.mk "C4" 16 16 80]).filter
            (fun n => decide ((16 : ℚ) ≤ n.start_beat) &&
              decide (n.start_beat < 32)) ].filter (fun g => decide (g ≠ []))) :=
  ⟨claim8_amended.1 (Note.mk "C4" 0 1 80) (Note.mk "D4" 3 1 80) 8
      (by with_unfolding_all decide) (by with_unfolding_all decide)
      (by norm_num) (by with_unfolding_all decide),
    claim8_amended.2 [Note.mk "C4" 0 (31 / 2) 80, Note.mk "C4" 16 16 80]
      (by simp) (by intro n hn; fin_cases hn <;> with_unfolding_all decide)
      (by with_unfolding_all decide)⟩
